import Mathlib

/-!
Verification of the rag asynchronous processing pipeline: the durable job
queue and worker dispatch state machine, the resilient Ollama client's
circuit breaker, the context merge/diff engine, and context persistence
with history.  Each Go function under study is shallowly embedded as an
executable Lean definition mirroring the source; theorems are stated
against those definitions.
-/

namespace RagSpec

/-! Go string primitives used by the merge engine's name validation
(`internal/ai/context.go`). -/

/-- Whitespace test used by the model of Go `strings.TrimSpace`. -/
def isSpaceChar (c : Char) : Bool := c.isWhitespace

/-- Drop trailing whitespace from a character list. -/
def trimRightList (l : List Char) : List Char :=
  (l.reverse.dropWhile isSpaceChar).reverse

/-- Trim leading and trailing whitespace from a character list. -/
def trimList (l : List Char) : List Char :=
  trimRightList (l.dropWhile isSpaceChar)

/-- Model of Go `strings.TrimSpace`. -/
def trimSpace (s : String) : String := String.mk (trimList s.data)

/-- Go `len(s)` on a string: the UTF-8 byte length. -/
def goLen (s : String) : Nat := s.utf8ByteSize

theorem goLen_mk (l : List Char) : goLen (String.mk l) = String.utf8ByteSize.go l := rfl

theorem utf8go_sublist_le {l₁ l₂ : List Char} (h : l₁.Sublist l₂) :
    String.utf8ByteSize.go l₁ ≤ String.utf8ByteSize.go l₂ := by
  induction h with
  | slnil => exact Nat.le_refl _
  | cons c _ ih =>
      calc String.utf8ByteSize.go _ ≤ _ := ih
        _ ≤ _ := Nat.le_add_right _ _
  | cons₂ c _ ih => exact Nat.add_le_add_right ih _

theorem dropWhile_suffix' (p : Char → Bool) (l : List Char) :
    (l.dropWhile p).IsSuffix l := by
  induction l with
  | nil => exact List.suffix_refl _
  | cons a t ih =>
      by_cases h : p a
      · simpa [List.dropWhile, h] using ih.trans (List.suffix_cons a t)
      · simp [List.dropWhile, h]

theorem trimRightList_isPref (l : List Char) : (trimRightList l).IsPrefix l := by
  have h := dropWhile_suffix' isSpaceChar l.reverse
  have h2 : (l.reverse.dropWhile isSpaceChar).reverse.IsPrefix l.reverse.reverse :=
    List.reverse_prefix.mpr h
  simpa [trimRightList] using h2

theorem trimList_sublist (l : List Char) : (trimList l).Sublist l := by
  have h1 : (trimList l).Sublist (l.dropWhile isSpaceChar) :=
    (trimRightList_isPref _).sublist
  exact h1.trans (dropWhile_suffix' isSpaceChar l).sublist

theorem goLen_trimSpace_le (s : String) : goLen (trimSpace s) ≤ goLen s := by
  cases s with
  | mk data =>
      show String.utf8ByteSize.go (trimList data) ≤ String.utf8ByteSize.go data
      exact utf8go_sublist_le (trimList_sublist data)

theorem dropWhile_head_false (p : Char → Bool) (l : List Char) :
    ∀ c, (l.dropWhile p).head? = some c → p c = false := by
  induction l with
  | nil => intro c h; simp [List.dropWhile] at h
  | cons a t ih =>
      intro c h
      by_cases hp : p a
      · exact ih c (by simpa [List.dropWhile, hp] using h)
      · simp [List.dropWhile, hp] at h
        simpa [← h] using hp

theorem dropWhile_eq_self_of_head (p : Char → Bool) (l : List Char)
    (h : ∀ c, l.head? = some c → p c = false) : l.dropWhile p = l := by
  cases l with
  | nil => rfl
  | cons a t => simp [List.dropWhile, h a rfl]

/-- Trimming is idempotent. -/
theorem trimList_idem (l : List Char) : trimList (trimList l) = trimList l := by
  by_cases hnil : trimList l = []
  · rw [hnil]; rfl
  · set u := l.dropWhile isSpaceChar with hu
    set r := u.reverse.dropWhile isSpaceChar with hr
    have hm : trimList l = r.reverse := rfl
    have hru : trimList l = r.reverse := hm
    -- head of the trimmed list is not whitespace
    have hpref : (trimList l).IsPrefix u := by
      rw [hm, hr]
      have h := dropWhile_suffix' isSpaceChar u.reverse
      have h2 := List.reverse_prefix.mpr h
      simpa using h2
    have hhead : ∀ c, (trimList l).head? = some c → isSpaceChar c = false := by
      intro c hc
      obtain ⟨t, ht⟩ := hpref
      have huhead : u.head? = some c := by
        cases hm2 : trimList l with
        | nil => rw [hm2] at hc; simp at hc
        | cons b bs =>
            rw [hm2] at hc; simp at hc
            rw [← ht, hm2]
            simpa using hc
      exact dropWhile_head_false isSpaceChar l c huhead
    -- so the left trim of the trimmed list is itself
    have hleft : (trimList l).dropWhile isSpaceChar = trimList l :=
      dropWhile_eq_self_of_head _ _ hhead
    -- and the reverse of the trimmed list starts with a non-whitespace char
    have hrev : (trimList l).reverse = r := by rw [hm]; simp
    have hrhead : ∀ c, r.head? = some c → isSpaceChar c = false := by
      intro c hc
      exact dropWhile_head_false isSpaceChar u.reverse c hc
    show trimRightList ((trimList l).dropWhile isSpaceChar) = trimList l
    rw [hleft]
    show ((trimList l).reverse.dropWhile isSpaceChar).reverse = trimList l
    rw [hrev, dropWhile_eq_self_of_head _ _ hrhead, ← hrev]
    simp

theorem trimSpace_idem (s : String) : trimSpace (trimSpace s) = trimSpace s := by
  cases s with
  | mk data =>
      show String.mk (trimList (trimList data)) = String.mk (trimList data)
      rw [trimList_idem]

/-! Context merge/diff engine (`internal/ai/context.go`).  A context document
is a JSON object; `JVal` is the dynamic value type produced by Go's
`json.Unmarshal` into `map[string]any`, and `Ctx` is the document itself
(`ContextModel`), modelled as an association list with Go-map get/set
semantics. -/

/-- Dynamic JSON value (`any` after `json.Unmarshal`). -/
inductive JVal where
  | jnull
  | jbool (b : Bool)
  | jnum (n : Int)
  | jstr (s : String)
  | jarr (xs : List JVal)
  | jobj (fields : List (String × JVal))

/-- A context document (`ai.ContextModel`), a key-to-value mapping. -/
def Ctx : Type := List (String × JVal)

/-- Map lookup `m[key]` (first binding wins). -/
def getCtx (m : Ctx) (key : String) : Option JVal :=
  match m with
  | [] => none
  | (k, v) :: rest => if k = key then some v else getCtx rest key

/-- Map write `m[key] = v`: replace the binding if present, append otherwise. -/
def setCtx (m : Ctx) (key : String) (v : JVal) : Ctx :=
  match m with
  | [] => [(key, v)]
  | (k, w) :: rest => if k = key then (key, v) :: rest else (k, w) :: setCtx rest key v

theorem getCtx_setCtx_same (m : Ctx) (key : String) (v : JVal) :
    getCtx (setCtx m key v) key = some v := by
  induction m with
  | nil => simp [setCtx, getCtx]
  | cons kv rest ih =>
      obtain ⟨k, w⟩ := kv
      by_cases h : k = key
      · simp [setCtx, getCtx, h]
      · simp [setCtx, getCtx, h, ih]

theorem getCtx_setCtx_ne (m : Ctx) (key key' : String) (v : JVal) (h : key' ≠ key) :
    getCtx (setCtx m key v) key' = getCtx m key' := by
  induction m with
  | nil => simp [setCtx, getCtx, Ne.symm h]
  | cons kv rest ih =>
      obtain ⟨k, w⟩ := kv
      by_cases hk : k = key
      · subst hk
        simp [setCtx, getCtx, Ne.symm h]
      · simp [setCtx, getCtx, hk, ih]

/-- Entity lists of an `ai.AIResponse`. -/
structure Entities where
  people : List String
  projects : List String
  technologies : List String
deriving DecidableEq, Repr

/-- The parsed model response (`ai.AIResponse`).  `confidence` (a Go
`*float64`) is carried as an optional rational; it plays no role in the
merge. -/
structure AIResponse where
  version : String
  summary : String
  entities : Entities
  confidence : Option Rat
  contextUpdate : Bool
  reasoning : String
  raw : String
deriving DecidableEq, Repr

/-- One audit record of a merge (`ai.ChangeRecord`); `none` models a nil
`any` value. -/
structure ChangeRecord where
  key : String
  oldValue : Option JVal
  newValue : Option JVal
  timestamp : Int

/-- Result of `ai.MergeAIResponse`. -/
structure MergeResult where
  merged : Ctx
  changes : List ChangeRecord
  conflicts : List String

/-- `ai.ValidateName`: a name is valid when it is non-blank after trimming
and its byte length is at most 255. -/
def validateName (s : String) : Bool :=
  decide (trimSpace s ≠ "" ∧ goLen s ≤ 255)

/-- The trimmed valid candidates of an entity list, in order. -/
def validOf (items : List String) : List String :=
  (items.filter validateName).map trimSpace

/-- The `"<key>:invalid:<value>"` conflicts recorded for the invalid
candidates, in order. -/
def conflictsOf (key : String) (items : List String) : List String :=
  (items.filter (fun it => !validateName it)).map (fun it => key ++ ":invalid:" ++ it)

/-- The string elements of a JSON array (Go's `a.(string)` type switch). -/
def strsOf (xs : List JVal) : List String :=
  xs.filterMap fun v => match v with | .jstr s => some s | _ => none

/-- Intermediate state of a merge: the document under construction plus the
accumulated change and conflict lists (the closure state in
`MergeAIResponse`). -/
structure MergeState where
  merged : Ctx
  changes : List ChangeRecord
  conflicts : List String

/-- The `setEntities` closure of `MergeAIResponse`: validate the candidate
names of one entity field, record a conflict per invalid name, and union the
valid trimmed names into the existing list; a non-list existing value is a
conflict and is left untouched. -/
def setEntities (now : Int) (key : String) (items : List String) (st : MergeState) :
    MergeState :=
  if items.isEmpty then st
  else
    let valid := validOf items
    let st1 : MergeState := { st with conflicts := st.conflicts ++ conflictsOf key items }
    if valid.isEmpty then st1
    else
      match getCtx st1.merged key with
      | some (JVal.jarr xs) =>
          let seen := strsOf xs
          let newOnes := valid.filter (fun s => !seen.contains s)
          if newOnes.isEmpty then st1
          else
            let cv := xs ++ newOnes.map JVal.jstr
            { merged := setCtx st1.merged key (JVal.jarr cv)
              changes := st1.changes ++
                [⟨key, some (JVal.jarr xs), some (JVal.jarr cv), now⟩]
              conflicts := st1.conflicts }
      | some _ => { st1 with conflicts := st1.conflicts ++ [key ++ ":existing_nonlist"] }
      | none =>
          let cv := valid.map JVal.jstr
          { merged := setCtx st1.merged key (JVal.jarr cv)
            changes := st1.changes ++ [⟨key, none, some (JVal.jarr cv), now⟩]
            conflicts := st1.conflicts }

/-- The summary merge step of `MergeAIResponse`: a non-blank incoming summary
overwrites a differing stored string summary; a non-string stored summary is
a conflict. -/
def mergeSummary (now : Int) (summary : String) (st : MergeState) : MergeState :=
  if trimSpace summary = "" then st
  else
    match getCtx st.merged "summary" with
    | some (JVal.jstr cur) =>
        if trimSpace cur = trimSpace summary then st
        else
          { st with
            merged := setCtx st.merged "summary" (JVal.jstr summary)
            changes := st.changes ++
              [⟨"summary", some (JVal.jstr cur), some (JVal.jstr summary), now⟩] }
    | some _ => { st with conflicts := st.conflicts ++ ["summary:existing_nonstring"] }
    | none =>
        { st with
          merged := setCtx st.merged "summary" (JVal.jstr summary)
          changes := st.changes ++ [⟨"summary", none, some (JVal.jstr summary), now⟩] }

/-- The metadata step of `MergeAIResponse`: `_meta.last_ai_update` and
`_meta.context_update_intent` are refreshed unconditionally, preserving any
other `_meta` fields; this is not recorded as a change. -/
def setMeta (now : Int) (contextUpdate : Bool) (m : Ctx) : Ctx :=
  let base : List (String × JVal) :=
    match getCtx m "_meta" with
    | some (JVal.jobj kvs) => kvs
    | _ => []
  setCtx m "_meta"
    (JVal.jobj (setCtx (setCtx base "last_ai_update" (JVal.jnum now))
      "context_update_intent" (JVal.jbool contextUpdate)))

/-- `ai.MergeAIResponse` after the existing context has been parsed: merge the
three entity lists, then the summary, then refresh `_meta`.  Pure; the only
Go error path (unparseable existing JSON) is modelled by
`MergeAIResponseGo`. -/
def MergeAIResponse (now : Int) (existing : Ctx) (r : AIResponse) : MergeResult :=
  let st0 : MergeState := ⟨existing, [], []⟩
  let st1 := setEntities now "people" r.entities.people st0
  let st2 := setEntities now "projects" r.entities.projects st1
  let st3 := setEntities now "technologies" r.entities.technologies st2
  let st4 := mergeSummary now r.summary st3
  { merged := setMeta now r.contextUpdate st4.merged
    changes := st4.changes
    conflicts := st4.conflicts }

/-- The full Go `MergeAIResponse` contract: it fails only when the existing
context JSON does not parse (`none` models unparseable bytes; empty input
parses to the empty document). -/
def MergeAIResponseGo (existingJSON : Option Ctx) (now : Int) (r : AIResponse) :
    Except String MergeResult :=
  match existingJSON with
  | none => Except.error "parse existing context"
  | some c => Except.ok (MergeAIResponse now c r)

/-! Lemmas about the merge steps. -/

theorem strsOf_append (xs ys : List JVal) : strsOf (xs ++ ys) = strsOf xs ++ strsOf ys := by
  simp [strsOf]

theorem strsOf_map_jstr (l : List String) : strsOf (l.map JVal.jstr) = l := by
  induction l with
  | nil => rfl
  | cons a t ih => simp [strsOf] at ih ⊢; exact ih

/-- An entity field needs no further merging: no candidates, no valid
candidates, or every valid candidate already appears in the stored list (a
stored non-list is also stable — it is never touched). -/
def entCovered (items : List String) (v : Option JVal) : Prop :=
  items = [] ∨ validOf items = [] ∨
    match v with
    | some (JVal.jarr xs) => ∀ s ∈ validOf items, s ∈ strsOf xs
    | some _ => True
    | none => False

theorem setEntities_of_covered (now : Int) (key : String) (items : List String)
    (st : MergeState) (h : entCovered items (getCtx st.merged key)) :
    (setEntities now key items st).merged = st.merged ∧
      (setEntities now key items st).changes = st.changes := by
  unfold setEntities
  rcases h with hItems | hValid | hMatch
  · simp [hItems]
  · by_cases hI : items.isEmpty
    · simp [hI]
    · simp [hI, hValid]
  · by_cases hI : items.isEmpty
    · simp [hI]
    · by_cases hV : (validOf items).isEmpty
      · simp [hI, hV]
      · cases hg : getCtx st.merged key with
        | none => rw [hg] at hMatch; exact absurd hMatch (by simp)
        | some v =>
            rw [hg] at hMatch
            cases v with
            | jarr xs =>
                have hAll : ∀ s ∈ validOf items, s ∈ strsOf xs := hMatch
                have hNew : ((validOf items).filter
                    (fun s => !(strsOf xs).contains s)).isEmpty = true := by
                  simpa using hAll
                simp only [hI, hV, hg, Bool.false_eq_true, if_false]
                rw [if_pos hNew]
                exact ⟨rfl, rfl⟩
            | jnull => simp [hI, hV, hg]
            | jbool b => simp [hI, hV, hg]
            | jnum n => simp [hI, hV, hg]
            | jstr s => simp [hI, hV, hg]
            | jobj fields => simp [hI, hV, hg]

theorem setEntities_covered_after (now : Int) (key : String) (items : List String)
    (st : MergeState) :
    entCovered items (getCtx (setEntities now key items st).merged key) := by
  by_cases hI : items.isEmpty
  · exact Or.inl (List.isEmpty_iff.mp hI)
  · by_cases hV : (validOf items).isEmpty
    · exact Or.inr (Or.inl (List.isEmpty_iff.mp hV))
    · refine Or.inr (Or.inr ?_)
      unfold setEntities
      cases hg : getCtx st.merged key with
      | none =>
          simp [hI, hV, hg, getCtx_setCtx_same, strsOf_map_jstr, entCovered]
      | some v =>
          cases v with
          | jarr xs =>
              by_cases hNew : ((validOf items).filter
                  (fun s => !(strsOf xs).contains s)).isEmpty = true
              · have hAll : ∀ s ∈ validOf items, s ∈ strsOf xs := by
                  intro s hs
                  by_contra hmem
                  have hin : s ∈ (validOf items).filter (fun s => !(strsOf xs).contains s) :=
                    List.mem_filter.mpr ⟨hs, by simpa using hmem⟩
                  rw [List.isEmpty_iff.mp hNew] at hin
                  exact absurd hin (by simp)
                simp only [hI, hV, hg, Bool.false_eq_true, if_false]
                rw [if_pos hNew]
                simpa [hg] using hAll
              · simp only [hI, hV, hg, Bool.false_eq_true, if_false]
                rw [if_neg hNew]
                simp only [getCtx_setCtx_same]
                intro s hs
                rw [strsOf_append, strsOf_map_jstr]
                by_cases hmem : s ∈ strsOf xs
                · exact List.mem_append.mpr (Or.inl hmem)
                · refine List.mem_append.mpr (Or.inr ?_)
                  exact List.mem_filter.mpr ⟨hs, by simpa using hmem⟩
          | jnull => simp [hI, hV, hg, entCovered]
          | jbool b => simp [hI, hV, hg, entCovered]
          | jnum n => simp [hI, hV, hg, entCovered]
          | jstr s => simp [hI, hV, hg, entCovered]
          | jobj fields => simp [hI, hV, hg, entCovered]

theorem setEntities_frame (now : Int) (key key' : String) (items : List String)
    (st : MergeState) (h : key' ≠ key) :
    getCtx (setEntities now key items st).merged key' = getCtx st.merged key' := by
  unfold setEntities
  by_cases hI : items.isEmpty
  · simp [hI]
  · by_cases hV : (validOf items).isEmpty
    · simp [hI, hV]
    · cases hg : getCtx st.merged key with
      | none => simp [hI, hV, hg, getCtx_setCtx_ne _ _ _ _ h]
      | some v =>
          cases v with
          | jarr xs =>
              by_cases hNew : ((validOf items).filter
                  (fun s => !(strsOf xs).contains s)).isEmpty = true
              · simp only [hI, hV, hg, Bool.false_eq_true, if_false]
                rw [if_pos hNew]
              · simp only [hI, hV, hg, Bool.false_eq_true, if_false]
                rw [if_neg hNew]
                exact getCtx_setCtx_ne _ _ _ _ h
          | jnull => simp [hI, hV, hg]
          | jbool b => simp [hI, hV, hg]
          | jnum n => simp [hI, hV, hg]
          | jstr s => simp [hI, hV, hg]
          | jobj fields => simp [hI, hV, hg]

/-- The summary field needs no further merging: blank incoming summary, or the
stored summary already agrees after trimming (a stored non-string is stable —
it is never touched). -/
def sumCovered (summary : String) (v : Option JVal) : Prop :=
  trimSpace summary = "" ∨
    match v with
    | some (JVal.jstr cur) => trimSpace cur = trimSpace summary
    | some _ => True
    | none => False

theorem mergeSummary_of_covered (now : Int) (summary : String) (st : MergeState)
    (h : sumCovered summary (getCtx st.merged "summary")) :
    (mergeSummary now summary st).merged = st.merged ∧
      (mergeSummary now summary st).changes = st.changes := by
  unfold mergeSummary
  rcases h with hBlank | hMatch
  · simp [hBlank]
  · by_cases hB : trimSpace summary = ""
    · simp [hB]
    · cases hg : getCtx st.merged "summary" with
      | none => rw [hg] at hMatch; exact absurd hMatch (by simp)
      | some v =>
          rw [hg] at hMatch
          cases v with
          | jstr cur => simp [hB, hg, hMatch]
          | jnull => simp [hB, hg]
          | jbool b => simp [hB, hg]
          | jnum n => simp [hB, hg]
          | jarr xs => simp [hB, hg]
          | jobj fields => simp [hB, hg]

theorem mergeSummary_covered_after (now : Int) (summary : String) (st : MergeState) :
    sumCovered summary (getCtx (mergeSummary now summary st).merged "summary") := by
  unfold mergeSummary sumCovered
  by_cases hB : trimSpace summary = ""
  · exact Or.inl hB
  · refine Or.inr ?_
    cases hg : getCtx st.merged "summary" with
    | none => simp [hB, hg, getCtx_setCtx_same]
    | some v =>
        cases v with
        | jstr cur =>
            by_cases hEq : trimSpace cur = trimSpace summary
            · simp [hB, hg, hEq]
            · simp [hB, hg, hEq, getCtx_setCtx_same]
        | jnull => simp [hB, hg]
        | jbool b => simp [hB, hg]
        | jnum n => simp [hB, hg]
        | jarr xs => simp [hB, hg]
        | jobj fields => simp [hB, hg]

theorem mergeSummary_frame (now : Int) (summary key' : String) (st : MergeState)
    (h : key' ≠ "summary") :
    getCtx (mergeSummary now summary st).merged key' = getCtx st.merged key' := by
  unfold mergeSummary
  by_cases hB : trimSpace summary = ""
  · simp [hB]
  · cases hg : getCtx st.merged "summary" with
    | none => simp [hB, hg, getCtx_setCtx_ne _ _ _ _ h]
    | some v =>
        cases v with
        | jstr cur =>
            by_cases hEq : trimSpace cur = trimSpace summary
            · simp [hB, hg, hEq]
            · simp [hB, hg, hEq, getCtx_setCtx_ne _ _ _ _ h]
        | jnull => simp [hB, hg]
        | jbool b => simp [hB, hg]
        | jnum n => simp [hB, hg]
        | jarr xs => simp [hB, hg]
        | jobj fields => simp [hB, hg]

theorem setMeta_frame (now : Int) (cu : Bool) (m : Ctx) (key' : String)
    (h : key' ≠ "_meta") : getCtx (setMeta now cu m) key' = getCtx m key' := by
  unfold setMeta
  exact getCtx_setCtx_ne _ _ _ _ h

/-- C7: merge idempotence.  For every base context and AIResponse, merging the
response a second time into the result of the first merge produces an empty
list of ChangeRecords: the entity lists and summary are already current. -/
theorem merge_idempotent_c7 (now1 now2 : Int) (existing : Ctx) (r : AIResponse) :
    (MergeAIResponse now2 (MergeAIResponse now1 existing r).merged r).changes = [] := by
  set st0 : MergeState := ⟨existing, [], []⟩ with hst0
  set st1 := setEntities now1 "people" r.entities.people st0 with hst1
  set st2 := setEntities now1 "projects" r.entities.projects st1 with hst2
  set st3 := setEntities now1 "technologies" r.entities.technologies st2 with hst3
  set st4 := mergeSummary now1 r.summary st3 with hst4
  have hMdef : (MergeAIResponse now1 existing r).merged =
      setMeta now1 r.contextUpdate st4.merged := rfl
  rw [hMdef]
  set M := setMeta now1 r.contextUpdate st4.merged with hMeq
  have hPe : entCovered r.entities.people (getCtx M "people") := by
    rw [hMeq, setMeta_frame _ _ _ _ (by decide), hst4,
        mergeSummary_frame _ _ _ _ (by decide), hst3,
        setEntities_frame _ _ _ _ _ (by decide), hst2,
        setEntities_frame _ _ _ _ _ (by decide), hst1]
    exact setEntities_covered_after now1 "people" r.entities.people st0
  have hPr : entCovered r.entities.projects (getCtx M "projects") := by
    rw [hMeq, setMeta_frame _ _ _ _ (by decide), hst4,
        mergeSummary_frame _ _ _ _ (by decide), hst3,
        setEntities_frame _ _ _ _ _ (by decide), hst2]
    exact setEntities_covered_after now1 "projects" r.entities.projects st1
  have hTe : entCovered r.entities.technologies (getCtx M "technologies") := by
    rw [hMeq, setMeta_frame _ _ _ _ (by decide), hst4,
        mergeSummary_frame _ _ _ _ (by decide), hst3]
    exact setEntities_covered_after now1 "technologies" r.entities.technologies st2
  have hSu : sumCovered r.summary (getCtx M "summary") := by
    rw [hMeq, setMeta_frame _ _ _ _ (by decide), hst4]
    exact mergeSummary_covered_after now1 r.summary st3
  set u1 := setEntities now2 "people" r.entities.people ⟨M, [], []⟩ with hu1
  set u2 := setEntities now2 "projects" r.entities.projects u1 with hu2
  set u3 := setEntities now2 "technologies" r.entities.technologies u2 with hu3
  set u4 := mergeSummary now2 r.summary u3 with hu4
  have hgoal : (MergeAIResponse now2 M r).changes = u4.changes := rfl
  rw [hgoal]
  have e1 : u1.merged = M ∧ u1.changes = ([] : List ChangeRecord) := by
    rw [hu1]
    exact setEntities_of_covered now2 "people" r.entities.people ⟨M, [], []⟩ hPe
  have e2 : u2.merged = M ∧ u2.changes = ([] : List ChangeRecord) := by
    have hcov : entCovered r.entities.projects (getCtx u1.merged "projects") := by
      rw [e1.1]; exact hPr
    have h2 := setEntities_of_covered now2 "projects" r.entities.projects u1 hcov
    rw [hu2]
    exact ⟨by rw [h2.1, e1.1], by rw [h2.2, e1.2]⟩
  have e3 : u3.merged = M ∧ u3.changes = ([] : List ChangeRecord) := by
    have hcov : entCovered r.entities.technologies (getCtx u2.merged "technologies") := by
      rw [e2.1]; exact hTe
    have h3 := setEntities_of_covered now2 "technologies" r.entities.technologies u2 hcov
    rw [hu3]
    exact ⟨by rw [h3.1, e2.1], by rw [h3.2, e2.2]⟩
  have e4 : u4.changes = ([] : List ChangeRecord) := by
    have hcov : sumCovered r.summary (getCtx u3.merged "summary") := by
      rw [e3.1]; exact hSu
    have h4 := mergeSummary_of_covered now2 r.summary u3 hcov
    rw [hu4, h4.2, e3.2]
  exact e4

/-- The string elements of an entity field value (empty for a missing key or
a non-list value). -/
def arrStrs : Option JVal → List String
  | some (JVal.jarr xs) => strsOf xs
  | _ => []

theorem validateName_trimSpace (s : String) (h : validateName s = true) :
    validateName (trimSpace s) = true := by
  unfold validateName at h ⊢
  obtain ⟨h1, h2⟩ := of_decide_eq_true h
  apply decide_eq_true
  exact ⟨by rw [trimSpace_idem]; exact h1, le_trans (goLen_trimSpace_le s) h2⟩

theorem mem_validOf (items : List String) (s : String) (h : s ∈ validOf items) :
    validateName s = true := by
  unfold validOf at h
  obtain ⟨x, hx, rfl⟩ := List.mem_map.mp h
  exact validateName_trimSpace x (List.mem_filter.mp hx).2

theorem setEntities_conflicts_mono (now : Int) (key : String) (items : List String)
    (st : MergeState) (x : String) (hx : x ∈ st.conflicts) :
    x ∈ (setEntities now key items st).conflicts := by
  unfold setEntities
  by_cases hI : items.isEmpty
  · simpa [hI] using hx
  · by_cases hV : (validOf items).isEmpty
    · simp only [hI, hV, Bool.false_eq_true, if_false, if_true]
      exact List.mem_append.mpr (Or.inl hx)
    · cases hg : getCtx st.merged key with
      | none => simp [hI, hV, hg, List.mem_append, hx]
      | some v =>
          cases v with
          | jarr xs =>
              by_cases hNew : ((validOf items).filter
                  (fun s => !(strsOf xs).contains s)).isEmpty = true
              · simp only [hI, hV, hg, Bool.false_eq_true, if_false]
                rw [if_pos hNew]
                exact List.mem_append.mpr (Or.inl hx)
              · simp only [hI, hV, hg, Bool.false_eq_true, if_false]
                rw [if_neg hNew]
                exact List.mem_append.mpr (Or.inl hx)
          | jnull => simp [hI, hV, hg, List.mem_append, hx]
          | jbool b => simp [hI, hV, hg, List.mem_append, hx]
          | jnum n => simp [hI, hV, hg, List.mem_append, hx]
          | jstr s => simp [hI, hV, hg, List.mem_append, hx]
          | jobj fields => simp [hI, hV, hg, List.mem_append, hx]

theorem mergeSummary_conflicts_mono (now : Int) (summary : String) (st : MergeState)
    (x : String) (hx : x ∈ st.conflicts) : x ∈ (mergeSummary now summary st).conflicts := by
  unfold mergeSummary
  by_cases hB : trimSpace summary = ""
  · simpa [hB] using hx
  · cases hg : getCtx st.merged "summary" with
    | none => simp [hB, hg, hx]
    | some v =>
        cases v with
        | jstr cur =>
            by_cases hEq : trimSpace cur = trimSpace summary
            · simpa [hB, hg, hEq] using hx
            · simp [hB, hg, hEq, hx]
        | jnull => simp [hB, hg, List.mem_append, hx]
        | jbool b => simp [hB, hg, List.mem_append, hx]
        | jnum n => simp [hB, hg, List.mem_append, hx]
        | jarr xs => simp [hB, hg, List.mem_append, hx]
        | jobj fields => simp [hB, hg, List.mem_append, hx]

theorem setEntities_conflicts_adds (now : Int) (key : String) (items : List String)
    (st : MergeState) (x : String) (hx : x ∈ conflictsOf key items) :
    x ∈ (setEntities now key items st).conflicts := by
  unfold setEntities
  by_cases hI : items.isEmpty
  · rw [List.isEmpty_iff.mp hI] at hx
    exact absurd hx (by simp [conflictsOf])
  · by_cases hV : (validOf items).isEmpty
    · simp only [hI, hV, Bool.false_eq_true, if_false, if_true]
      exact List.mem_append.mpr (Or.inr hx)
    · cases hg : getCtx st.merged key with
      | none => simp [hI, hV, hg, List.mem_append, hx]
      | some v =>
          cases v with
          | jarr xs =>
              by_cases hNew : ((validOf items).filter
                  (fun s => !(strsOf xs).contains s)).isEmpty = true
              · simp only [hI, hV, hg, Bool.false_eq_true, if_false]
                rw [if_pos hNew]
                exact List.mem_append.mpr (Or.inr hx)
              · simp only [hI, hV, hg, Bool.false_eq_true, if_false]
                rw [if_neg hNew]
                exact List.mem_append.mpr (Or.inr hx)
          | jnull => simp [hI, hV, hg, List.mem_append, hx]
          | jbool b => simp [hI, hV, hg, List.mem_append, hx]
          | jnum n => simp [hI, hV, hg, List.mem_append, hx]
          | jstr s => simp [hI, hV, hg, List.mem_append, hx]
          | jobj fields => simp [hI, hV, hg, List.mem_append, hx]

theorem setEntities_strs_subset (now : Int) (key : String) (items : List String)
    (st : MergeState) (s : String)
    (hs : s ∈ arrStrs (getCtx (setEntities now key items st).merged key)) :
    s ∈ arrStrs (getCtx st.merged key) ∨ s ∈ validOf items := by
  unfold setEntities at hs
  by_cases hI : items.isEmpty
  · rw [if_pos hI] at hs
    exact Or.inl hs
  · rw [if_neg hI] at hs
    by_cases hV : (validOf items).isEmpty
    · rw [if_pos hV] at hs
      exact Or.inl hs
    · rw [if_neg hV] at hs
      cases hg : getCtx st.merged key with
      | none =>
          simp only [hg] at hs
          rw [getCtx_setCtx_same] at hs
          simp only [arrStrs, strsOf_map_jstr] at hs
          exact Or.inr hs
      | some v =>
          cases v with
          | jarr xs =>
              simp only [hg] at hs
              by_cases hNew : ((validOf items).filter
                  (fun s => !(strsOf xs).contains s)).isEmpty = true
              · rw [if_pos hNew] at hs
                have h2 : s ∈ arrStrs (getCtx st.merged key) := hs
                rw [hg] at h2
                exact Or.inl h2
              · rw [if_neg hNew] at hs
                rw [getCtx_setCtx_same] at hs
                simp only [arrStrs] at hs
                rw [strsOf_append, strsOf_map_jstr] at hs
                rcases List.mem_append.mp hs with h1 | h1
                · exact Or.inl h1
                · exact Or.inr (List.mem_filter.mp h1).1
          | jnull => simp only [hg] at hs; exact Or.inl hs
          | jbool b => simp only [hg] at hs; exact Or.inl hs
          | jnum n => simp only [hg] at hs; exact Or.inl hs
          | jstr s2 => simp only [hg] at hs; exact Or.inl hs
          | jobj fields => simp only [hg] at hs; exact Or.inl hs

/-- C6: a candidate entity name that is blank after trimming or longer than
255 bytes is excluded from the merged entity list (it is not among the names
the merge can add), a conflict string `"<field>:invalid:<value>"` is
recorded, and the merge call still succeeds (stated here for the `people`
field; `projects` and `technologies` use the same `setEntities` closure). -/
theorem merge_invalid_name_c6 (now : Int) (existing : Ctx) (r : AIResponse) (it : String)
    (hmem : it ∈ r.entities.people)
    (hinv : trimSpace it = "" ∨ 255 < goLen it) :
    MergeAIResponseGo (some existing) now r =
        Except.ok (MergeAIResponse now existing r) ∧
      ("people:invalid:" ++ it) ∈ (MergeAIResponse now existing r).conflicts ∧
      (it ∉ arrStrs (getCtx existing "people") →
        it ∉ arrStrs (getCtx (MergeAIResponse now existing r).merged "people")) := by
  have hval : validateName it = false := by
    unfold validateName
    apply decide_eq_false
    rintro ⟨h1, h2⟩
    rcases hinv with h | h
    · exact h1 h
    · omega
  refine ⟨rfl, ?_, ?_⟩
  · -- the conflict is recorded by the people step and survives the rest
    have hc : ("people:invalid:" ++ it) ∈ conflictsOf "people" r.entities.people := by
      unfold conflictsOf
      exact List.mem_map.mpr ⟨it, List.mem_filter.mpr ⟨hmem, by simp [hval]⟩, rfl⟩
    set st0 : MergeState := ⟨existing, [], []⟩ with hst0
    set st1 := setEntities now "people" r.entities.people st0 with hst1
    set st2 := setEntities now "projects" r.entities.projects st1 with hst2
    set st3 := setEntities now "technologies" r.entities.technologies st2 with hst3
    have hfin : (MergeAIResponse now existing r).conflicts =
        (mergeSummary now r.summary st3).conflicts := rfl
    rw [hfin]
    apply mergeSummary_conflicts_mono
    rw [hst3]; apply setEntities_conflicts_mono
    rw [hst2]; apply setEntities_conflicts_mono
    rw [hst1]; exact setEntities_conflicts_adds now "people" r.entities.people st0 _ hc
  · -- exclusion: the merged people list adds only validated trimmed names
    intro hnotin hincl
    set st0 : MergeState := ⟨existing, [], []⟩ with hst0
    set st1 := setEntities now "people" r.entities.people st0 with hst1
    set st2 := setEntities now "projects" r.entities.projects st1 with hst2
    set st3 := setEntities now "technologies" r.entities.technologies st2 with hst3
    set st4 := mergeSummary now r.summary st3 with hst4
    have hMdef : (MergeAIResponse now existing r).merged =
        setMeta now r.contextUpdate st4.merged := rfl
    rw [hMdef, setMeta_frame _ _ _ _ (by decide), hst4,
        mergeSummary_frame _ _ _ _ (by decide), hst3,
        setEntities_frame _ _ _ _ _ (by decide), hst2,
        setEntities_frame _ _ _ _ _ (by decide), hst1] at hincl
    rcases setEntities_strs_subset now "people" r.entities.people st0 it hincl with h | h
    · exact hnotin h
    · rw [mem_validOf r.entities.people it h] at hval
      exact absurd hval (by simp)

/-- Concrete AIResponse used by the C6 witness: one blank people candidate. -/
def respC6 : AIResponse :=
  { version := "v1", summary := "", entities := ⟨["   "], [], []⟩,
    confidence := none, contextUpdate := false, reasoning := "", raw := "" }

/-- C6 witness: the hypotheses hold for a blank candidate name and the
conflict is produced on a concrete merge. -/
theorem merge_invalid_name_c6_witness :
    ("   " ∈ respC6.entities.people) ∧ trimSpace "   " = "" ∧
      ("people:invalid:" ++ "   ") ∈ (MergeAIResponse 7 [] respC6).conflicts :=
  ⟨by decide, by decide,
    (merge_invalid_name_c6 7 [] respC6 "   " (by decide) (Or.inl (by decide))).2.1⟩

theorem setEntities_nil_items (now : Int) (key : String) (st : MergeState) :
    setEntities now key [] st = st := by
  simp [setEntities]

theorem mergeSummary_empty (now : Int) (st : MergeState) : mergeSummary now "" st = st := by
  unfold mergeSummary
  rw [if_pos (show trimSpace "" = "" by decide)]

/-- An AIResponse carrying a single people candidate and nothing else. -/
def peopleResponse (name : String) : AIResponse :=
  { version := "v1", summary := "", entities := ⟨[name], [], []⟩,
    confidence := none, contextUpdate := false, reasoning := "", raw := "" }

theorem merge_people_pair (t1 t2 : Int) (X Y : String)
    (hX : validateName X = true) (hXt : trimSpace X = X)
    (hY : validateName Y = true) (hYt : trimSpace Y = Y)
    (hne : Y ≠ X) :
    (MergeAIResponse t1 [] (peopleResponse X)).conflicts = [] ∧
      (MergeAIResponse t2 (MergeAIResponse t1 [] (peopleResponse X)).merged
        (peopleResponse Y)).conflicts = [] ∧
      arrStrs (getCtx (MergeAIResponse t2 (MergeAIResponse t1 [] (peopleResponse X)).merged
        (peopleResponse Y)).merged "people") = [X, Y] := by
  have hvX : validOf [X] = [X] := by simp [validOf, hX, hXt]
  have hcX : conflictsOf "people" [X] = [] := by simp [conflictsOf, hX]
  have hvY : validOf [Y] = [Y] := by simp [validOf, hY, hYt]
  have hcY : conflictsOf "people" [Y] = [] := by simp [conflictsOf, hY]
  have h1 : setEntities t1 "people" [X] (⟨([] : Ctx), [], []⟩ : MergeState) =
      ⟨[("people", JVal.jarr [JVal.jstr X])],
        [⟨"people", none, some (JVal.jarr [JVal.jstr X]), t1⟩], []⟩ := by
    unfold setEntities
    simp [hvX, hcX, getCtx, setCtx]
  have hm1 : MergeAIResponse t1 [] (peopleResponse X) =
      { merged := [("people", JVal.jarr [JVal.jstr X]),
          ("_meta", JVal.jobj [("last_ai_update", JVal.jnum t1),
            ("context_update_intent", JVal.jbool false)])],
        changes := [⟨"people", none, some (JVal.jarr [JVal.jstr X]), t1⟩],
        conflicts := [] } := by
    unfold MergeAIResponse peopleResponse
    simp only [h1, setEntities_nil_items, mergeSummary_empty]
    unfold setMeta
    simp [getCtx, setCtx]
  have h2 : setEntities t2 "people" [Y]
      (⟨[("people", JVal.jarr [JVal.jstr X]),
          ("_meta", JVal.jobj [("last_ai_update", JVal.jnum t1),
            ("context_update_intent", JVal.jbool false)])], [], []⟩ : MergeState) =
      ⟨[("people", JVal.jarr [JVal.jstr X, JVal.jstr Y]),
          ("_meta", JVal.jobj [("last_ai_update", JVal.jnum t1),
            ("context_update_intent", JVal.jbool false)])],
        [⟨"people", some (JVal.jarr [JVal.jstr X]),
          some (JVal.jarr [JVal.jstr X, JVal.jstr Y]), t2⟩], []⟩ := by
    unfold setEntities
    simp [hvY, hcY, getCtx, setCtx, strsOf, hne]
  have hm2 : MergeAIResponse t2 (MergeAIResponse t1 [] (peopleResponse X)).merged
      (peopleResponse Y) =
      { merged := [("people", JVal.jarr [JVal.jstr X, JVal.jstr Y]),
          ("_meta", JVal.jobj [("last_ai_update", JVal.jnum t2),
            ("context_update_intent", JVal.jbool false)])],
        changes := [⟨"people", some (JVal.jarr [JVal.jstr X]),
          some (JVal.jarr [JVal.jstr X, JVal.jstr Y]), t2⟩],
        conflicts := [] } := by
    rw [hm1]
    unfold MergeAIResponse peopleResponse
    simp only [h2, setEntities_nil_items, mergeSummary_empty]
    unfold setMeta
    simp [getCtx, setCtx]
  refine ⟨?_, ?_, ?_⟩
  · rw [hm1]
  · rw [hm2]
  · rw [hm2]
    simp [getCtx, arrStrs, strsOf]

/-- C8: merging `{people:[A]}` then `{people:[B]}` for distinct valid trimmed
names A and B adds exactly A and B: the two merge orders produce the people
lists `[A, B]` and `[B, A]`, which are permutations of each other, and
neither order records any conflict. -/
theorem merge_disjoint_commutes_c8 (t1 t2 t3 t4 : Int) (A B : String)
    (hA : validateName A = true) (hAt : trimSpace A = A)
    (hB : validateName B = true) (hBt : trimSpace B = B) (hAB : A ≠ B) :
    arrStrs (getCtx (MergeAIResponse t2 (MergeAIResponse t1 [] (peopleResponse A)).merged
        (peopleResponse B)).merged "people") = [A, B] ∧
      arrStrs (getCtx (MergeAIResponse t4 (MergeAIResponse t3 [] (peopleResponse B)).merged
        (peopleResponse A)).merged "people") = [B, A] ∧
      ([A, B] : List String).Perm [B, A] ∧
      (MergeAIResponse t1 [] (peopleResponse A)).conflicts = [] ∧
      (MergeAIResponse t2 (MergeAIResponse t1 [] (peopleResponse A)).merged
        (peopleResponse B)).conflicts = [] ∧
      (MergeAIResponse t3 [] (peopleResponse B)).conflicts = [] ∧
      (MergeAIResponse t4 (MergeAIResponse t3 [] (peopleResponse B)).merged
        (peopleResponse A)).conflicts = [] := by
  have hfwd := merge_people_pair t1 t2 A B hA hAt hB hBt (Ne.symm hAB)
  have hbwd := merge_people_pair t3 t4 B A hB hBt hA hAt hAB
  exact ⟨hfwd.2.2, hbwd.2.2, List.Perm.swap B A [], hfwd.1, hfwd.2.1, hbwd.1, hbwd.2.1⟩

/-- C8 witness: the hypotheses hold for the distinct valid names Alice and
Bob, and the first merge order yields the people list `[Alice, Bob]`. -/
theorem merge_disjoint_commutes_c8_witness :
    validateName "Alice" = true ∧ trimSpace "Alice" = "Alice" ∧
      validateName "Bob" = true ∧ trimSpace "Bob" = "Bob" ∧ "Alice" ≠ "Bob" ∧
      arrStrs (getCtx (MergeAIResponse 2 (MergeAIResponse 1 []
        (peopleResponse "Alice")).merged (peopleResponse "Bob")).merged "people") =
        ["Alice", "Bob"] :=
  ⟨by decide, by decide, by decide, by decide, by decide,
    (merge_disjoint_commutes_c8 1 2 3 4 "Alice" "Bob"
      (by decide) (by decide) (by decide) (by decide) (by decide)).1⟩

/-! Resilient Model Client circuit breaker (`pkg/ollama/client.go`).  The
breaker keeps two counters: the consecutive-failure count and the open-until
timestamp (UnixNano).  `isCircuitOpen` and `recordFailure` mirror the Go
methods; the three guarded entry points record failures differently and are
modelled separately: `callStep` is one `ListModels` call (one recording per
failed call), `healthCall` is one `Health` call (the inner ListModels'
recording plus its own), and `generateCall` is one `Generate` call (one
recording per failed attempt, up to `Retries + 1`, re-consulting the breaker
between attempts).  In each, the breaker is consulted first and only a
pass-through call touches the network. -/

/-- Breaker-relevant fields of `ollama.Config`. -/
structure BreakerConfig where
  threshold : Int
  reset : Int
deriving DecidableEq, Repr

/-- The breaker counters stored on `ollama.Client`. -/
structure BreakerState where
  failures : Int
  openUntil : Int
deriving DecidableEq, Repr

/-- `Client.isCircuitOpen`: closed below the threshold; open while
`now < openUntil`; once the reset instant has passed the failure counter is
cleared and the call is allowed through (the implicit half-open trial). -/
def isCircuitOpen (cfg : BreakerConfig) (now : Int) (b : BreakerState) :
    Bool × BreakerState :=
  if b.failures < cfg.threshold then (false, b)
  else if now < b.openUntil then (true, b)
  else (false, { b with failures := 0 })

/-- `Client.recordFailure`: increment the counter, and arm the breaker for
`reset` nanoseconds when the count reaches the threshold. -/
def recordFailure (cfg : BreakerConfig) (now : Int) (b : BreakerState) : BreakerState :=
  let f := b.failures + 1
  if cfg.threshold ≤ f then { failures := f, openUntil := now + cfg.reset }
  else { b with failures := f }

/-- Outcome of one guarded client call. -/
inductive CallResult where
  | circuitOpen
  | ok
  | failed
deriving DecidableEq, Repr

/-- One guarded `ListModels` call at time `now`.  When the breaker reports
open, the call fails fast with the sentinel and `netFails` is never consulted
(no network attempt); otherwise a network failure records exactly one failure
and success resets the counter.  (The one `ListModels` path that errors
without recording — an unparseable configured base URL — is a static
configuration error and is not modelled.)  `Health` and `Generate` record
failures differently and are modelled by `healthCall` and `generateCall`
below. -/
def callStep (cfg : BreakerConfig) (now : Int) (netFails : Bool) (b : BreakerState) :
    CallResult × BreakerState :=
  let g := isCircuitOpen cfg now b
  if g.1 then (CallResult.circuitOpen, g.2)
  else if netFails then (CallResult.failed, recordFailure cfg now g.2)
  else (CallResult.ok, { g.2 with failures := 0 })

/-- `Client.Health`: its own breaker guard, then an inner `ListModels` call
(which carries its own guard and failure recording), then Health's own
`recordFailure` when the inner call errs (`netFails`) or returns an empty
model list (`zeroModels`).  A failed-transport Health call therefore records
TWO failures — the inner ListModels' and its own — and an empty model list
records one. -/
def healthCall (cfg : BreakerConfig) (now : Int) (netFails zeroModels : Bool)
    (b : BreakerState) : CallResult × BreakerState :=
  let g := isCircuitOpen cfg now b
  if g.1 then (CallResult.circuitOpen, g.2)
  else
    let inner := callStep cfg now netFails g.2
    match inner.1 with
    | CallResult.ok =>
        if zeroModels then (CallResult.failed, recordFailure cfg now inner.2)
        else (CallResult.ok, { inner.2 with failures := 0 })
    | _ => (CallResult.failed, recordFailure cfg now inner.2)

/-- The attempt loop of `Client.Generate`: each failing attempt records one
failure and then re-consults the breaker, aborting with the sentinel as soon
as it has opened; a successful attempt resets the counter; an exhausted list
of attempts (`Retries + 1` entries) returns the wrapped failure.  The whole
call is modelled at the single instant `now` (the backoff sleeps elapse no
model time). -/
def generateLoop (cfg : BreakerConfig) (now : Int) :
    List Bool → BreakerState → CallResult × BreakerState
  | [], b => (CallResult.failed, b)
  | attemptFails :: rest, b =>
      if attemptFails then
        let b1 := recordFailure cfg now b
        let g := isCircuitOpen cfg now b1
        if g.1 then (CallResult.circuitOpen, g.2)
        else generateLoop cfg now rest g.2
      else (CallResult.ok, { b with failures := 0 })

/-- `Client.Generate`: the entry breaker guard followed by the retry loop;
`attemptFails` lists the network outcome of each of the up to `Retries + 1`
attempts. -/
def generateCall (cfg : BreakerConfig) (now : Int) (attemptFails : List Bool)
    (b : BreakerState) : CallResult × BreakerState :=
  let g := isCircuitOpen cfg now b
  if g.1 then (CallResult.circuitOpen, g.2)
  else generateLoop cfg now attemptFails g.2

/-- `n` consecutive failing `ListModels` calls, all at time `t` — each records
exactly one failure. -/
def failCalls (cfg : BreakerConfig) (t : Int) : Nat → BreakerState → BreakerState
  | 0, b => b
  | n + 1, b => failCalls cfg t n (callStep cfg t true b).2

theorem failCalls_spec (cfg : BreakerConfig) (t u : Int) :
    ∀ (k j : Nat), (j : Int) + (k : Int) ≤ cfg.threshold →
      failCalls cfg t k ⟨(j : Int), u⟩ =
        ⟨(j : Int) + (k : Int),
          if 0 < k ∧ (j : Int) + (k : Int) = cfg.threshold then t + cfg.reset else u⟩ := by
  intro k
  induction k with
  | zero =>
      intro j hb
      simp [failCalls]
  | succ k ih =>
      intro j hb
      have hjlt : (j : Int) < cfg.threshold := by push_cast at hb ⊢; omega
      have hstep : (callStep cfg t true ⟨(j : Int), u⟩).2 =
          recordFailure cfg t ⟨(j : Int), u⟩ := by
        simp [callStep, isCircuitOpen, hjlt]
      by_cases harm : cfg.threshold ≤ (j : Int) + 1
      · have hth : cfg.threshold = (j : Int) + 1 := by omega
        have hk0 : k = 0 := by push_cast at hb; omega
        subst hk0
        show failCalls cfg t 0 (callStep cfg t true ⟨(j : Int), u⟩).2 = _
        rw [hstep]
        simp only [recordFailure, failCalls]
        rw [if_pos harm]
        have : (j : Int) + (1 : Nat) = cfg.threshold := by push_cast; omega
        simp [this, hth]
      · have hlt : (j : Int) + 1 < cfg.threshold := by omega
        show failCalls cfg t k (callStep cfg t true ⟨(j : Int), u⟩).2 = _
        rw [hstep]
        simp only [recordFailure]
        rw [if_neg harm]
        have hcast : ((j + 1 : Nat) : Int) = (j : Int) + 1 := by push_cast; ring
        have hb2 : ((j + 1 : Nat) : Int) + (k : Int) ≤ cfg.threshold := by
          push_cast at hb ⊢; omega
        have := ih (j + 1) hb2
        rw [hcast] at this
        rw [this]
        congr 1
        · push_cast; ring
        · by_cases hk : 0 < k
          · have hcond : ((j : Int) + 1 + (k : Int) = cfg.threshold) ↔
                ((j : Int) + ((k : Nat) + 1 : Nat) = cfg.threshold) := by
              push_cast; constructor <;> intro h <;> omega
            by_cases he : (j : Int) + 1 + (k : Int) = cfg.threshold
            · rw [if_pos ⟨hk, he⟩, if_pos ⟨Nat.succ_pos k, by push_cast at he ⊢; omega⟩]
            · rw [if_neg (by tauto), if_neg ?_]
              rintro ⟨h1, h2⟩
              exact he (by push_cast at h2 ⊢; omega)
          · have hk0 : k = 0 := by omega
            subst hk0
            rw [if_neg (by simp), if_neg ?_]
            rintro ⟨h1, h2⟩
            push_cast at h2
            omega

theorem generateLoop_opens (cfg : BreakerConfig) (now u : Int)
    (hreset : 0 < cfg.reset) :
    ∀ (k j : Nat), (j : Int) < cfg.threshold → cfg.threshold ≤ (j : Int) + (k : Int) →
      generateLoop cfg now (List.replicate k true) ⟨(j : Int), u⟩ =
        (CallResult.circuitOpen, ⟨cfg.threshold, now + cfg.reset⟩) := by
  intro k
  induction k with
  | zero =>
      intro j hj hb
      exfalso
      push_cast at hb
      omega
  | succ k ih =>
      intro j hj hb
      show generateLoop cfg now (true :: List.replicate k true) ⟨(j : Int), u⟩ = _
      by_cases harm : cfg.threshold ≤ (j : Int) + 1
      · have hth2 : cfg.threshold = (j : Int) + 1 := by omega
        have hb1 : recordFailure cfg now ⟨(j : Int), u⟩ =
            ⟨(j : Int) + 1, now + cfg.reset⟩ := by
          simp only [recordFailure]
          rw [if_pos harm]
        have hg : isCircuitOpen cfg now ⟨(j : Int) + 1, now + cfg.reset⟩ =
            (true, ⟨(j : Int) + 1, now + cfg.reset⟩) := by
          simp [isCircuitOpen, hreset]
          omega
        simp only [generateLoop, if_true, hb1, hg]
        rw [hth2]
      · have hlt2 : (j : Int) + 1 < cfg.threshold := by omega
        have hb1 : recordFailure cfg now ⟨(j : Int), u⟩ = ⟨(j : Int) + 1, u⟩ := by
          simp only [recordFailure]
          rw [if_neg harm]
        have hg : isCircuitOpen cfg now ⟨(j : Int) + 1, u⟩ =
            (false, ⟨(j : Int) + 1, u⟩) := by
          simp [isCircuitOpen, hlt2]
        simp only [generateLoop, if_true, hb1, hg]
        have hcast : ((j + 1 : Nat) : Int) = (j : Int) + 1 := by push_cast; ring
        have hrec := ih (j + 1) (by rw [hcast]; omega) (by push_cast at hb ⊢; omega)
        rw [hcast] at hrec
        exact hrec

/-- C1 counterexample: with threshold 2 and reset 10, two failures at time 0
open the circuit; the half-open `ListModels` trial (`callStep`) at time 10
fails, yet the next call at time 11 is NOT rejected (the failed ListModels
trial recorded only one fresh failure, so Open is not re-armed and more than
one call is let through), contradicting the claim. -/
theorem circuit_breaker_c1_cex :
    failCalls ⟨2, 10⟩ 0 2 ⟨0, 0⟩ = ⟨2, 10⟩ ∧
      callStep ⟨2, 10⟩ 10 true ⟨2, 10⟩ = (CallResult.failed, ⟨1, 10⟩) ∧
      (callStep ⟨2, 10⟩ 11 true ⟨1, 10⟩).1 ≠ CallResult.circuitOpen := by
  refine ⟨?_, ?_, ?_⟩ <;> decide

/-- C1 amended: after exactly `threshold` consecutive recorded failures, every
call — `ListModels`, `Health`, or `Generate` — made before `open_until` (the
threshold-reaching failure time plus `reset`) returns the circuit-open
sentinel without a network attempt and leaves the state unchanged.  Once
`reset` has elapsed, the failure counter is cleared and the call is let
through regardless of the prior failure count.  A failed trial re-arms Open
only once it has recorded `threshold` fresh failures: a failed `ListModels`
trial records one, so with `threshold ≥ 2` the next call is still let
through; a failed-transport `Health` trial records two (the inner
ListModels' and its own), reaching `failures = 2` and re-arming Open when
`threshold ≤ 2`; and a failed `Generate` trial records one failure per
attempt, aborting with the sentinel as soon as the count reaches the
threshold. -/
theorem circuit_breaker_amended_c1 (cfg : BreakerConfig) (t u now1 now2 now3 : Int)
    (hth : 0 < cfg.threshold) :
    (failCalls cfg t cfg.threshold.toNat ⟨0, u⟩ = ⟨cfg.threshold, t + cfg.reset⟩) ∧
      (∀ (nf zm : Bool) (fails : List Bool), now1 < t + cfg.reset →
        callStep cfg now1 nf ⟨cfg.threshold, t + cfg.reset⟩ =
            (CallResult.circuitOpen, ⟨cfg.threshold, t + cfg.reset⟩) ∧
          healthCall cfg now1 nf zm ⟨cfg.threshold, t + cfg.reset⟩ =
            (CallResult.circuitOpen, ⟨cfg.threshold, t + cfg.reset⟩) ∧
          generateCall cfg now1 fails ⟨cfg.threshold, t + cfg.reset⟩ =
            (CallResult.circuitOpen, ⟨cfg.threshold, t + cfg.reset⟩)) ∧
      (∀ f : Int, cfg.threshold ≤ f → t + cfg.reset ≤ now2 →
        callStep cfg now2 true ⟨f, t + cfg.reset⟩ =
            (CallResult.failed, recordFailure cfg now2 ⟨0, t + cfg.reset⟩) ∧
          callStep cfg now2 false ⟨f, t + cfg.reset⟩ =
            (CallResult.ok, ⟨0, t + cfg.reset⟩)) ∧
      ((recordFailure cfg now2 ⟨0, t + cfg.reset⟩).failures = 1) ∧
      (2 ≤ cfg.threshold → ∀ nf : Bool,
        (callStep cfg now3 nf ⟨1, t + cfg.reset⟩).1 ≠ CallResult.circuitOpen) ∧
      (cfg.threshold ≤ 1 → now3 < now2 + cfg.reset → ∀ nf : Bool,
        (callStep cfg now3 nf (recordFailure cfg now2 ⟨0, t + cfg.reset⟩)).1 =
          CallResult.circuitOpen) ∧
      (∀ (f : Int) (zm : Bool), cfg.threshold ≤ f → t + cfg.reset ≤ now2 →
        (healthCall cfg now2 true zm ⟨f, t + cfg.reset⟩).1 = CallResult.failed ∧
          (healthCall cfg now2 true zm ⟨f, t + cfg.reset⟩).2.failures = 2 ∧
          (cfg.threshold ≤ 2 →
            (healthCall cfg now2 true zm ⟨f, t + cfg.reset⟩).2.openUntil =
              now2 + cfg.reset) ∧
          (cfg.threshold ≤ 2 → now3 < now2 + cfg.reset → ∀ nf : Bool,
            (callStep cfg now3 nf
              (healthCall cfg now2 true zm ⟨f, t + cfg.reset⟩).2).1 =
              CallResult.circuitOpen)) ∧
      (0 < cfg.reset → ∀ (k : Nat) (f : Int),
        cfg.threshold ≤ f → cfg.threshold ≤ (k : Int) → t + cfg.reset ≤ now2 →
        generateCall cfg now2 (List.replicate k true) ⟨f, t + cfg.reset⟩ =
          (CallResult.circuitOpen, ⟨cfg.threshold, now2 + cfg.reset⟩)) := by
  refine ⟨?_, ?_, ?_, ?_, ?_, ?_, ?_, ?_⟩
  · have h := failCalls_spec cfg t u cfg.threshold.toNat 0 (by simp [Int.toNat_of_nonneg hth.le])
    simp only [Nat.cast_zero, zero_add] at h
    rw [Int.toNat_of_nonneg hth.le] at h
    rw [h, if_pos ⟨by omega, rfl⟩]
  · intro nf zm fails hlt
    refine ⟨?_, ?_, ?_⟩
    · simp [callStep, isCircuitOpen, hlt, lt_irrefl]
    · simp [healthCall, isCircuitOpen, hlt, lt_irrefl]
    · simp [generateCall, isCircuitOpen, hlt, lt_irrefl]
  · intro f hf hresetle
    have hnotlt : ¬ f < cfg.threshold := not_lt.mpr hf
    have hnotnow : ¬ now2 < t + cfg.reset := not_lt.mpr hresetle
    constructor
    · simp [callStep, isCircuitOpen, hnotlt, hnotnow]
    · simp [callStep, isCircuitOpen, hnotlt, hnotnow]
  · simp only [recordFailure]
    split <;> rfl
  · intro h2 nf
    have h1lt : (1 : Int) < cfg.threshold := by omega
    cases nf <;> simp [callStep, isCircuitOpen, h1lt]
  · intro h1 hlt nf
    have harm : cfg.threshold ≤ (0 : Int) + 1 := by omega
    simp only [recordFailure]
    rw [if_pos harm]
    have hnotlt : ¬ (1 : Int) < cfg.threshold := by omega
    simp [callStep, isCircuitOpen, hnotlt, hlt]
  · intro f zm hf hresetle
    have hnotlt : ¬ f < cfg.threshold := not_lt.mpr hf
    have hnotnow : ¬ now2 < t + cfg.reset := not_lt.mpr hresetle
    have houter : isCircuitOpen cfg now2 ⟨f, t + cfg.reset⟩ =
        (false, ⟨0, t + cfg.reset⟩) := by
      simp [isCircuitOpen, hnotlt, hnotnow]
    have hinner : callStep cfg now2 true ⟨0, t + cfg.reset⟩ =
        (CallResult.failed, recordFailure cfg now2 ⟨0, t + cfg.reset⟩) := by
      simp [callStep, isCircuitOpen, hth]
    have hH : healthCall cfg now2 true zm ⟨f, t + cfg.reset⟩ =
        (CallResult.failed,
          recordFailure cfg now2 (recordFailure cfg now2 ⟨0, t + cfg.reset⟩)) := by
      simp only [healthCall, houter, hinner]
      simp
    have hr1 : recordFailure cfg now2 ⟨0, t + cfg.reset⟩ =
        ⟨1, if cfg.threshold ≤ 1 then now2 + cfg.reset else t + cfg.reset⟩ := by
      simp only [recordFailure, zero_add]
      by_cases h1 : cfg.threshold ≤ (1 : Int)
      · simp [h1]
      · simp [h1]
    have hr2 : recordFailure cfg now2 (recordFailure cfg now2 ⟨0, t + cfg.reset⟩) =
        ⟨2, if cfg.threshold ≤ 2 then now2 + cfg.reset else t + cfg.reset⟩ := by
      rw [hr1]
      simp only [recordFailure]
      have e2 : (1 : Int) + 1 = 2 := by norm_num
      simp only [e2]
      by_cases h2 : cfg.threshold ≤ (2 : Int)
      · simp [h2]
      · simp [h2, show ¬ cfg.threshold ≤ (1 : Int) from by omega]
    refine ⟨by rw [hH], by rw [hH, hr2], ?_, ?_⟩
    · intro h2
      rw [hH, hr2]
      simp [h2]
    · intro h2 hlt3 nf
      rw [hH, hr2]
      have hnotlt2 : ¬ (2 : Int) < cfg.threshold := by omega
      simp [callStep, isCircuitOpen, hnotlt2, h2, hlt3]
  · intro hreset k f hf hk hresetle
    have hnotlt : ¬ f < cfg.threshold := not_lt.mpr hf
    have hnotnow : ¬ now2 < t + cfg.reset := not_lt.mpr hresetle
    have houter : isCircuitOpen cfg now2 ⟨f, t + cfg.reset⟩ =
        (false, ⟨0, t + cfg.reset⟩) := by
      simp [isCircuitOpen, hnotlt, hnotnow]
    have hloop := generateLoop_opens cfg now2 (t + cfg.reset) hreset k 0
      (by simpa using hth) (by simpa using hk)
    simp only [Nat.cast_zero] at hloop
    simp only [generateCall, houter]
    exact hloop

/-- C1 witness: the amended theorem instantiated at threshold 2, reset 10. -/
theorem circuit_breaker_amended_c1_witness :
    (0 : Int) < 2 ∧
      failCalls ⟨2, 10⟩ 0 (Int.toNat 2) ⟨0, 0⟩ = ⟨2, 10⟩ :=
  ⟨by decide, (circuit_breaker_amended_c1 ⟨2, 10⟩ 0 0 5 10 11 (by decide)).1⟩

/-! Job queue (`internal/models.BackgroundJob`, the jobs table accessed by
`SQLiteRepo.FetchNext` / `jobs.Repository.FetchNext`, and the worker loop of
`internal/jobs/worker.go`).  Timestamps are Unix seconds, as persisted by the
SQLite repository. -/

/-- `models.BackgroundJob` / `jobs.Job`, one row of the `jobs` table. -/
structure BackgroundJob where
  id : Int
  type : String
  payload : String
  status : String
  attempts : Int
  maxAttempts : Int
  priority : Int
  scheduledAt : Int
  nextTryAt : Option Int
  lastError : String
  created : Int
  updated : Int
deriving DecidableEq, Repr

/-- The WHERE clause of `FetchNext`: status `queued` or `retry`, `next_try_at`
null or due, and `scheduled_at` due. -/
def eligible (now : Int) (j : BackgroundJob) : Bool :=
  (j.status == "queued" || j.status == "retry") &&
    (match j.nextTryAt with
     | none => true
     | some nt => decide (nt ≤ now)) &&
    decide (j.scheduledAt ≤ now)

/-- The serving order of `FetchNext` (`ORDER BY priority ASC, scheduled_at
ASC`). -/
def lexLe (a b : BackgroundJob) : Prop :=
  a.priority < b.priority ∨ (a.priority = b.priority ∧ a.scheduledAt ≤ b.scheduledAt)

/-- Select a minimal row in (priority, scheduled_at) order, keeping the
earlier row on ties. -/
def pickMin (best : BackgroundJob) : List BackgroundJob → BackgroundJob
  | [] => best
  | x :: xs =>
      if x.priority < best.priority ∨
          (x.priority = best.priority ∧ x.scheduledAt < best.scheduledAt) then
        pickMin x xs
      else pickMin best xs

/-- `FetchNext`: the single `SELECT ... WHERE eligible ORDER BY priority ASC,
scheduled_at ASC LIMIT 1`, over a store modelled as a list of rows
(tie-breaking among equal keys is unspecified in SQL; the model keeps the
earlier row). -/
def FetchNext (now : Int) (store : List BackgroundJob) : Option BackgroundJob :=
  match store.filter (eligible now) with
  | [] => none
  | x :: xs => some (pickMin x xs)

theorem lexLe_refl (a : BackgroundJob) : lexLe a a := Or.inr ⟨rfl, le_refl _⟩

theorem lexLe_trans {a b c : BackgroundJob} (h1 : lexLe a b) (h2 : lexLe b c) :
    lexLe a c := by
  unfold lexLe at h1 h2 ⊢
  rcases h1 with h1 | ⟨h1, h1s⟩ <;> rcases h2 with h2 | ⟨h2, h2s⟩
  · exact Or.inl (lt_trans h1 h2)
  · exact Or.inl (by omega)
  · exact Or.inl (by omega)
  · exact Or.inr ⟨by omega, by omega⟩

theorem lexLe_of_not_lt {a b : BackgroundJob}
    (h : ¬ (a.priority < b.priority ∨
      (a.priority = b.priority ∧ a.scheduledAt < b.scheduledAt))) : lexLe b a := by
  unfold lexLe
  push_neg at h
  by_cases hp : b.priority < a.priority
  · exact Or.inl hp
  · have h1 : a.priority = b.priority := by omega
    exact Or.inr ⟨h1.symm, by have := h.2 h1; omega⟩

theorem lexLe_of_lt {a b : BackgroundJob}
    (h : a.priority < b.priority ∨
      (a.priority = b.priority ∧ a.scheduledAt < b.scheduledAt)) : lexLe a b := by
  unfold lexLe
  rcases h with h | ⟨h, hs⟩
  · exact Or.inl h
  · exact Or.inr ⟨h, le_of_lt hs⟩

theorem pickMin_mem (best : BackgroundJob) (xs : List BackgroundJob) :
    pickMin best xs ∈ best :: xs := by
  induction xs generalizing best with
  | nil => simp [pickMin]
  | cons x xs ih =>
      unfold pickMin
      by_cases hc : x.priority < best.priority ∨
          (x.priority = best.priority ∧ x.scheduledAt < best.scheduledAt)
      · rw [if_pos hc]
        rcases List.mem_cons.mp (ih x) with h | h
        · exact List.mem_cons.mpr (Or.inr (List.mem_cons.mpr (Or.inl h)))
        · exact List.mem_cons.mpr (Or.inr (List.mem_cons.mpr (Or.inr h)))
      · rw [if_neg hc]
        rcases List.mem_cons.mp (ih best) with h | h
        · exact List.mem_cons.mpr (Or.inl h)
        · exact List.mem_cons.mpr (Or.inr (List.mem_cons.mpr (Or.inr h)))

theorem pickMin_le (best : BackgroundJob) (xs : List BackgroundJob) :
    ∀ k ∈ best :: xs, lexLe (pickMin best xs) k := by
  induction xs generalizing best with
  | nil =>
      intro k hk
      rcases List.mem_cons.mp hk with rfl | h
      · exact lexLe_refl _
      · exact absurd h (by simp)
  | cons x xs ih =>
      intro k hk
      unfold pickMin
      by_cases hc : x.priority < best.priority ∨
          (x.priority = best.priority ∧ x.scheduledAt < best.scheduledAt)
      · rw [if_pos hc]
        rcases List.mem_cons.mp hk with hkb | h
        · rw [hkb]
          exact lexLe_trans (ih x x (List.mem_cons.mpr (Or.inl rfl))) (lexLe_of_lt hc)
        · rcases List.mem_cons.mp h with hkx | h2
          · rw [hkx]
            exact ih x x (List.mem_cons.mpr (Or.inl rfl))
          · exact ih x k (List.mem_cons.mpr (Or.inr h2))
      · rw [if_neg hc]
        rcases List.mem_cons.mp hk with hkb | h
        · rw [hkb]
          exact ih best best (List.mem_cons.mpr (Or.inl rfl))
        · rcases List.mem_cons.mp h with hkx | h2
          · rw [hkx]
            exact lexLe_trans (ih best best (List.mem_cons.mpr (Or.inl rfl)))
              (lexLe_of_not_lt hc)
          · exact ih best k (List.mem_cons.mpr (Or.inr h2))

/-- C4: `FetchNext` returns a job iff some stored job is eligible (status in
{queued, retry}, `next_try_at` null or ≤ now, `scheduled_at` ≤ now), and the
returned job is an eligible one that is minimal among all eligible jobs in
ascending (priority, scheduled_at) order. -/
theorem fetchNext_spec_c4 (now : Int) (store : List BackgroundJob) :
    (FetchNext now store = none ↔ ∀ j ∈ store, eligible now j = false) ∧
      (∀ j, FetchNext now store = some j →
        j ∈ store ∧ eligible now j = true ∧
          ∀ k ∈ store, eligible now k = true → lexLe j k) := by
  constructor
  · unfold FetchNext
    cases hf : store.filter (eligible now) with
    | nil =>
        simp only [true_iff]
        intro j hj
        by_contra hne
        have : j ∈ store.filter (eligible now) :=
          List.mem_filter.mpr ⟨hj, by simpa using hne⟩
        rw [hf] at this
        exact absurd this (by simp)
    | cons x xs =>
        simp only [reduceCtorEq, false_iff]
        intro hall
        have hx : x ∈ store.filter (eligible now) := by rw [hf]; simp
        have := List.mem_filter.mp hx
        rw [hall x this.1] at this
        exact absurd this.2 (by simp)
  · intro j hj
    unfold FetchNext at hj
    cases hf : store.filter (eligible now) with
    | nil => rw [hf] at hj; exact absurd hj (by simp)
    | cons x xs =>
        rw [hf] at hj
        have hj2 : j = pickMin x xs := by
          simpa using hj.symm
        subst hj2
        have hmem : pickMin x xs ∈ store.filter (eligible now) := by
          rw [hf]; exact pickMin_mem x xs
        have hmf := List.mem_filter.mp hmem
        refine ⟨hmf.1, hmf.2, ?_⟩
        intro k hk hke
        have hkf : k ∈ store.filter (eligible now) := List.mem_filter.mpr ⟨hk, hke⟩
        rw [hf] at hkf
        exact pickMin_le x xs k hkf

/-- C4 witness: on a two-job store the eligible lower-priority job is
fetched, and it is lexicographically minimal. -/
def jobC4a : BackgroundJob :=
  ⟨1, "ai.analyze_activity", "p1", "queued", 0, 5, 20, 10, none, "", 0, 0⟩

def jobC4b : BackgroundJob :=
  ⟨2, "ai.analyze_activity", "p2", "retry", 1, 5, 10, 20, some 50, "e", 0, 0⟩

theorem fetchNext_spec_c4_witness :
    FetchNext 100 [jobC4a, jobC4b] = some jobC4b ∧
      jobC4b ∈ [jobC4a, jobC4b] ∧ eligible 100 jobC4b = true ∧ lexLe jobC4b jobC4a :=
  ⟨by decide,
    by
      have h := (fetchNext_spec_c4 100 [jobC4a, jobC4b]).2 jobC4b (by decide)
      exact ⟨h.1, h.2.1, h.2.2 jobC4a (by decide) (by decide)⟩⟩

/-- The full effect of one repository `FetchNext` call on the job store:
`SQLiteRepo.FetchNext` (and the identical `jobs.Repository.FetchNext`)
executes a single SELECT and no INSERT/UPDATE/DELETE, so the store after the
call is exactly the store before it — the returned job is not claimed,
marked, or locked in any way. -/
def FetchNextStep (now : Int) (store : List BackgroundJob) :
    Option BackgroundJob × List BackgroundJob :=
  (FetchNext now store, store)

/-- Concrete queued job used to exhibit the missing claim in C2. -/
def jobC2 : BackgroundJob :=
  ⟨1, "ai.process_response", "p", "queued", 0, 5, 10, 0, none, "", 0, 0⟩

/-- C2: `FetchNext` does not claim the job it returns.  On a store holding one
eligible queued job, a first fetch returns the job, and a second fetch run on
the resulting store — before any `UpdateJob` — returns the very same job,
which is still eligible; two workers polling concurrently can therefore both
receive it.  This contradicts the claim (and the spec's required
fetch-and-claim semantics): the code never marks the fetched row. -/
theorem fetchNext_does_not_claim_c2 :
    (FetchNextStep 100 [jobC2]).1 = some jobC2 ∧
      (FetchNextStep 100 (FetchNextStep 100 [jobC2]).2).1 = some jobC2 ∧
      (FetchNextStep 100 [jobC2]).2 = [jobC2] ∧
      eligible 100 jobC2 = true := by
  refine ⟨?_, ?_, ?_, ?_⟩ <;> decide

/-! Worker dispatch and retry backoff (`internal/jobs/jobs.go`,
`internal/jobs/worker.go`). -/

/-- Reduce an integer to the 64-bit two's-complement value Go stores. -/
def int64wrap (x : Int) : Int := (x + 2 ^ 63) % 2 ^ 64 - 2 ^ 63

/-- Go `1 << uint(attempt)` on a 64-bit `int`: shift counts of 64 or more
produce 0, and the bit pattern is interpreted in two's complement. -/
def goShl1 (n : Nat) : Int := if 64 ≤ n then 0 else int64wrap (2 ^ n)

/-- `jobs.BackoffDuration`, in nanoseconds (a Go `time.Duration`): one second
for non-positive attempts, otherwise `2^attempt` seconds capped at five
minutes — where the multiplication by `time.Second` is 64-bit and wraps. -/
def BackoffDuration (attempt : Int) : Int :=
  if attempt ≤ 0 then 1000000000
  else
    let d := int64wrap (goShl1 attempt.toNat * 1000000000)
    if 300000000000 < d then 300000000000 else d

/-- The write a worker performs for a dispatched job: either a dead-letter
move or an `UpdateJob`. -/
inductive DispatchAction where
  | deadLetter (j : BackgroundJob)
  | update (j : BackgroundJob)
deriving DecidableEq, Repr

/-- One dispatch of a fetched job by `WorkerPool.worker` (worker.go 85–121).
`hasHandler` states whether a handler is registered for the job's type, and
`handlerErr` is the handler outcome.  `now` is the worker clock in Unix
seconds; the retry branch persists `next_try_at = time.Now().Add(backoff).Unix()`,
i.e. `now` plus the backoff duration floored to seconds. -/
def dispatchJob (hasHandler : Bool) (handlerErr : Option String) (now : Int)
    (j : BackgroundJob) : DispatchAction :=
  if !hasHandler then
    DispatchAction.deadLetter { j with status := "failed", lastError := "no handler" }
  else
    match handlerErr with
    | none => DispatchAction.update { j with status := "done" }
    | some e =>
        let j1 := { j with attempts := j.attempts + 1, lastError := e }
        if j1.maxAttempts ≤ j1.attempts then
          DispatchAction.deadLetter { j1 with status := "failed" }
        else
          DispatchAction.update { j1 with
            status := "retry"
            nextTryAt := some (now + Int.fdiv (BackoffDuration j1.attempts) 1000000000) }

theorem backoff_formula (n : Nat) (h1 : 1 ≤ n) (h33 : n ≤ 33) :
    Int.fdiv (BackoffDuration (n : Int)) 1000000000 = min ((2 : Int) ^ n) 300 := by
  have hnpos : ¬ ((n : Int) ≤ 0) := by omega
  have hble : (2 : Int) ^ n ≤ 2 ^ 33 := pow_le_pow_right₀ (by norm_num) h33
  have hbge : (2 : Int) ≤ 2 ^ n := by
    calc (2 : Int) = 2 ^ 1 := (pow_one 2).symm
      _ ≤ 2 ^ n := pow_le_pow_right₀ (by norm_num) h1
  have h33v : (2 : Int) ^ 33 = 8589934592 := by norm_num
  have hwrap1 : int64wrap (2 ^ n) = 2 ^ n := by
    unfold int64wrap
    rw [Int.emod_eq_of_lt (by omega) (by omega)]
    omega
  have hshl : goShl1 n = 2 ^ n := by
    unfold goShl1
    rw [if_neg (by omega)]
    exact hwrap1
  have hwrap2 : int64wrap (2 ^ n * 1000000000) = 2 ^ n * 1000000000 := by
    unfold int64wrap
    rw [Int.emod_eq_of_lt (by nlinarith) (by nlinarith)]
    ring
  unfold BackoffDuration
  rw [if_neg hnpos]
  simp only [Int.toNat_natCast, hshl, hwrap2]
  by_cases hcap : (300000000000 : Int) < 2 ^ n * 1000000000
  · rw [if_pos hcap]
    have : (300 : Int) < 2 ^ n := by nlinarith
    rw [min_eq_right (le_of_lt this)]
    decide
  · rw [if_neg hcap]
    have hle : (2 : Int) ^ n ≤ 300 := by nlinarith
    rw [min_eq_left hle]
    exact Int.mul_fdiv_cancel _ (by norm_num)

/-- Concrete job exhibiting the backoff overflow: attempts 33, 34 allowed. -/
def jobC3 : BackgroundJob :=
  ⟨7, "ai.analyze_activity", "p", "retry", 33, 100, 10, 0, none, "", 0, 0⟩

/-- C3 counterexample: a handler error on a job with 33 prior attempts (and
max_attempts large enough to keep retrying) yields `next_try_at` of
`now - 1266874890` seconds — about 40 years in the past — because
`time.Duration(1<<34) * time.Second` overflows int64, instead of the claimed
`now + min(2^34 s, 5 min) = now + 300`. -/
theorem dispatch_backoff_overflow_c3_cex :
    dispatchJob true (some "boom") 0 jobC3 = DispatchAction.update
        { jobC3 with
          attempts := 34
          lastError := "boom"
          status := "retry"
          nextTryAt := some (-1266874890) } ∧
      (-1266874890 : Int) ≠ (0 : Int) + min ((2 : Int) ^ (34 : Nat)) 300 := by
  constructor
  · decide
  · decide

/-- C3 amended: the worker dispatch state machine as claimed — no handler
means immediate dead-letter with no retry, success means status `done`,
a handler error increments attempts and dead-letters once
`attempts ≥ max_attempts`, otherwise sets status `retry` with
`next_try_at = now + min(2^attempts s, 5 min)` — with the backoff formula
restricted to post-increment attempt counts up to 33 (every enqueue in this
repository uses max_attempts ≤ 5, so this covers all reachable jobs); at 34
and beyond the Go int64 duration product overflows (see the
counterexample). -/
theorem dispatch_state_machine_c3 (e : String) (now : Int) (j : BackgroundJob)
    (h0 : 0 ≤ j.attempts) (h32 : j.attempts ≤ 32) :
    (∀ herr : Option String, dispatchJob false herr now j =
        DispatchAction.deadLetter
          { j with status := "failed", lastError := "no handler" }) ∧
      dispatchJob true none now j = DispatchAction.update { j with status := "done" } ∧
      (j.maxAttempts ≤ j.attempts + 1 →
        dispatchJob true (some e) now j = DispatchAction.deadLetter
          { j with attempts := j.attempts + 1, lastError := e, status := "failed" }) ∧
      (j.attempts + 1 < j.maxAttempts →
        dispatchJob true (some e) now j = DispatchAction.update
          { j with
            attempts := j.attempts + 1
            lastError := e
            status := "retry"
            nextTryAt := some (now + min ((2 : Int) ^ (j.attempts + 1).toNat) 300) }) := by
  refine ⟨?_, ?_, ?_, ?_⟩
  · intro herr
    simp [dispatchJob]
  · simp [dispatchJob]
  · intro hmax
    unfold dispatchJob
    simp only [Bool.not_true, Bool.false_eq_true, if_false]
    rw [if_pos hmax]
  · intro hlt
    unfold dispatchJob
    simp only [Bool.not_true, Bool.false_eq_true, if_false]
    rw [if_neg (by omega)]
    have hcast : ((j.attempts + 1).toNat : Int) = j.attempts + 1 := by omega
    have hform := backoff_formula (j.attempts + 1).toNat (by omega) (by omega)
    rw [hcast] at hform
    rw [hform]

/-- C3 witness for the amended dispatch theorem: a fresh job with the default
max_attempts whose handler fails is scheduled for retry 2 seconds later. -/
def jobC3w : BackgroundJob :=
  ⟨9, "ai.analyze_activity", "p", "queued", 0, 5, 10, 0, none, "", 0, 0⟩

theorem dispatch_state_machine_c3_witness :
    (0 : Int) ≤ jobC3w.attempts ∧ jobC3w.attempts ≤ 32 ∧
      jobC3w.attempts + 1 < jobC3w.maxAttempts ∧
      dispatchJob true (some "x") 40 jobC3w = DispatchAction.update
        { jobC3w with
          attempts := 1
          lastError := "x"
          status := "retry"
          nextTryAt := some (40 + min ((2 : Int) ^ (jobC3w.attempts + 1).toNat) 300) } :=
  ⟨by decide, by decide, by decide,
    (dispatch_state_machine_c3 "x" 40 jobC3w (by decide) (by decide)).2.2.2 (by decide)⟩

/-! Dead-lettering (`SQLiteRepo.MoveToDeadLetter` / `jobs.Repository.MoveToDeadLetter`). -/

/-- One row of `dead_letter_jobs`. -/
structure DeadLetterJob where
  jobId : Int
  type : String
  payload : String
  attempts : Int
  lastError : String
  failedAt : Int
deriving DecidableEq, Repr

/-- The job store the repository mutates: the `jobs` table and the
`dead_letter_jobs` table. -/
structure JobStore where
  jobs : List BackgroundJob
  deadLetters : List DeadLetterJob
deriving DecidableEq, Repr

/-- The dead-letter copy inserted for a job. -/
def deadLetterRecordOf (now : Int) (j : BackgroundJob) : DeadLetterJob :=
  ⟨j.id, j.type, j.payload, j.attempts, j.lastError, now⟩

/-- `MoveToDeadLetter`: a single transaction that inserts the dead-letter copy
and deletes the original row, committing at the end; `insertFails`,
`deleteFails` and `commitFails` inject statement failures, each of which
rolls the transaction back (the Go code calls `tx.Rollback()` on every error
path).  Returns whether the move succeeded along with the resulting store. -/
def MoveToDeadLetter (insertFails deleteFails commitFails : Bool) (now : Int)
    (j : BackgroundJob) (st : JobStore) : Bool × JobStore :=
  if insertFails then (false, st)
  else if deleteFails then (false, st)
  else if commitFails then (false, st)
  else
    (true,
      { jobs := st.jobs.filter (fun x => x.id != j.id)
        deadLetters := st.deadLetters ++ [deadLetterRecordOf now j] })

/-- A dead-letter row carrying the job's type, payload and attempt count. -/
def matchesDead (j : BackgroundJob) (r : DeadLetterJob) : Bool :=
  r.type == j.type && r.payload == j.payload && r.attempts == j.attempts

/-- C5: dead-lettering is atomic.  If no matching dead-letter row exists yet,
then on success the job's id is gone from the active jobs table and exactly
one dead-letter record with the job's type, payload and attempt count
exists; on any failure (insert, delete, or commit) the store is completely
unchanged. -/
theorem moveToDeadLetter_atomic_c5 (fi fd fc : Bool) (now : Int) (j : BackgroundJob)
    (st : JobStore) (hfresh : (st.deadLetters.filter (matchesDead j)).length = 0) :
    (fi = false → fd = false → fc = false →
      (MoveToDeadLetter fi fd fc now j st).1 = true ∧
        (∀ x ∈ (MoveToDeadLetter fi fd fc now j st).2.jobs, ¬ x.id = j.id) ∧
        ((MoveToDeadLetter fi fd fc now j st).2.deadLetters.filter
          (matchesDead j)).length = 1) ∧
    ((fi = true ∨ fd = true ∨ fc = true) →
      MoveToDeadLetter fi fd fc now j st = (false, st)) := by
  constructor
  · rintro rfl rfl rfl
    refine ⟨rfl, ?_, ?_⟩
    · intro x hx
      have := List.mem_filter.mp hx
      simpa using this.2
    · show ((st.deadLetters ++ [deadLetterRecordOf now j]).filter
        (matchesDead j)).length = 1
      rw [List.filter_append]
      have hone : [deadLetterRecordOf now j].filter (matchesDead j) =
          [deadLetterRecordOf now j] := by
        simp [matchesDead, deadLetterRecordOf]
      rw [hone]
      simp [hfresh]
  · rintro (rfl | rfl | rfl)
    · rfl
    · cases fi <;> rfl
    · cases fi <;> cases fd <;> rfl

/-- Concrete exhausted job used by the C5 witness. -/
def jobC5 : BackgroundJob :=
  ⟨3, "ai.process_response", "pl", "failed", 5, 5, 10, 0, some 90, "boom", 0, 0⟩

/-- C5 witness: a successful move on a one-job store deletes the job and
leaves exactly one matching dead-letter record; a failing insert leaves the
store untouched. -/
theorem moveToDeadLetter_atomic_c5_witness :
    (([] : List DeadLetterJob).filter (matchesDead jobC5)).length = 0 ∧
      (MoveToDeadLetter false false false 50 jobC5 ⟨[jobC5], []⟩).1 = true ∧
      MoveToDeadLetter true false false 50 jobC5 ⟨[jobC5], []⟩ =
        (false, ⟨[jobC5], []⟩) :=
  ⟨by decide,
    ((moveToDeadLetter_atomic_c5 false false false 50 jobC5 ⟨[jobC5], []⟩
      (by decide)).1 rfl rfl rfl).1,
    (moveToDeadLetter_atomic_c5 true false false 50 jobC5 ⟨[jobC5], []⟩
      (by decide)).2 (Or.inl rfl)⟩

/-! Engineer context persistence (`internal/repository/sqlite/context.go`).
The store is parametric in the stored document type and in the payload types
of the optional `changes_json`/`conflicts_json` columns, so the same
definitions serve the raw-JSON view (documents as strings) and the parsed
view used by the response processor (documents as `Ctx`). -/

/-- One row of `engineer_context_history` (`models.ContextHistory`). -/
structure HistEntry (α δ ε : Type) where
  engineerId : Int
  doc : α
  changes : Option δ
  conflicts : Option ε
  appliedBy : String
  created : Int
  version : Int

/-- The `engineer_contexts` table (one `(engineer_id, document, version)` row
per engineer) together with its append-only history table. -/
structure CtxStore (α δ ε : Type) where
  current : List (Int × α × Int)
  history : List (HistEntry α δ ε)

/-- The row lookup `SELECT ... FROM engineer_contexts WHERE engineer_id = ?`. -/
def getCurrent {α δ ε : Type} (st : CtxStore α δ ε) (eng : Int) : Option (α × Int) :=
  (st.current.find? (fun row => row.1 == eng)).map (fun row => row.2)

/-- `SQLiteRepo.UpsertEngineerContext`: inside one transaction, read the
current version (absent rows start at version 1, present rows move to
version+1), write the current row, append a minimal history row (NULL
changes/conflicts) carrying the same new version, and return the new
version. -/
def UpsertEngineerContext {α δ ε : Type} (now eng : Int) (doc : α) (appliedBy : String)
    (st : CtxStore α δ ε) : Int × CtxStore α δ ε :=
  match getCurrent st eng with
  | none =>
      (1, { current := st.current ++ [(eng, doc, 1)]
            history := st.history ++ [⟨eng, doc, none, none, appliedBy, now, 1⟩] })
  | some (_, v) =>
      (v + 1,
        { current := st.current.map
            (fun row => if row.1 == eng then (eng, doc, v + 1) else row)
          history := st.history ++ [⟨eng, doc, none, none, appliedBy, now, v + 1⟩] })

/-- `SQLiteRepo.CreateContextHistory`: append one explicit history row with
the optional change/conflict payloads. -/
def CreateContextHistory {α δ ε : Type} (now eng : Int) (doc : α) (changes : Option δ)
    (conflicts : Option ε) (appliedBy : String) (version : Int)
    (st : CtxStore α δ ε) : CtxStore α δ ε :=
  { st with
    history := st.history ++ [⟨eng, doc, changes, conflicts, appliedBy, now, version⟩] }

/-- `SQLiteRepo.GetEngineerContext` (current document and version, if any). -/
def GetEngineerContext {α δ ε : Type} (st : CtxStore α δ ε) (eng : Int) :
    Option (α × Int) :=
  getCurrent st eng

theorem find?_append_of_none {α : Type} (p : α → Bool) (l1 l2 : List α)
    (h : l1.find? p = none) : (l1 ++ l2).find? p = l2.find? p := by
  induction l1 with
  | nil => simp
  | cons a t ih =>
      by_cases hp : p a
      · rw [List.find?_cons_of_pos _ hp] at h
        exact absurd h (by simp)
      · rw [List.find?_cons_of_neg _ hp] at h
        rw [List.cons_append, List.find?_cons_of_neg _ hp]
        exact ih h

theorem find?_map_update {α : Type} (l : List (Int × α × Int)) (eng : Int) (doc : α)
    (v : Int) (h : (l.find? (fun row => row.1 == eng)).isSome) :
    (l.map (fun row => if row.1 == eng then (eng, doc, v) else row)).find?
      (fun row => row.1 == eng) = some (eng, doc, v) := by
  induction l with
  | nil => simp at h
  | cons r t ih =>
      by_cases hr : r.1 == eng
      · rw [List.map_cons, if_pos hr]
        exact List.find?_cons_of_pos _ (by simp)
      · rw [List.map_cons, if_neg hr]
        have hstep : List.find? (fun row => row.1 == eng)
            (r :: (t.map (fun row => if row.1 == eng then (eng, doc, v) else row))) =
            List.find? (fun row => row.1 == eng)
              (t.map (fun row => if row.1 == eng then (eng, doc, v) else row)) :=
          List.find?_cons_of_neg _ hr
        rw [hstep]
        have hdrop : List.find? (fun row => row.1 == eng) (r :: t) =
            List.find? (fun row => row.1 == eng) t :=
          List.find?_cons_of_neg _ hr
        rw [hdrop] at h
        exact ih h

/-- C9: `UpsertEngineerContext` returns version 1 when the engineer has no
current context and exactly the previous version plus one otherwise; every
successful write appends one history row carrying that same new version, and
the current row afterwards holds the written document at the new version. -/
theorem upsert_version_history_c9 {α δ ε : Type} (now eng : Int) (doc : α) (ab : String)
    (st : CtxStore α δ ε) :
    (UpsertEngineerContext now eng doc ab st).1 =
        (match getCurrent st eng with
         | none => 1
         | some p => p.2 + 1) ∧
      (UpsertEngineerContext now eng doc ab st).2.history =
        st.history ++ [⟨eng, doc, none, none, ab, now,
          (UpsertEngineerContext now eng doc ab st).1⟩] ∧
      getCurrent (UpsertEngineerContext now eng doc ab st).2 eng =
        some (doc, (UpsertEngineerContext now eng doc ab st).1) := by
  cases hg : getCurrent st eng with
  | none =>
      have hfind : st.current.find? (fun row => row.1 == eng) = none := by
        unfold getCurrent at hg
        exact Option.map_eq_none'.mp hg
      unfold UpsertEngineerContext
      rw [hg]
      refine ⟨rfl, rfl, ?_⟩
      unfold getCurrent
      show ((st.current ++ [(eng, doc, (1 : Int))]).find?
          (fun (row : Int × α × Int) => row.1 == eng)).map
          (fun (row : Int × α × Int) => row.2) = some (doc, (1 : Int))
      rw [find?_append_of_none _ _ _ hfind]
      rw [List.find?_cons_of_pos _ (by simp)]
      rfl
  | some p =>
      obtain ⟨d, v⟩ := p
      have hfind : (st.current.find? (fun row => row.1 == eng)).isSome := by
        unfold getCurrent at hg
        cases hf : st.current.find? (fun row => row.1 == eng) with
        | none => rw [hf] at hg; simp at hg
        | some row => simp
      unfold UpsertEngineerContext
      rw [hg]
      refine ⟨rfl, rfl, ?_⟩
      unfold getCurrent
      show ((st.current.map
          (fun (row : Int × α × Int) => if row.1 == eng then (eng, doc, v + 1) else row)).find?
          (fun (row : Int × α × Int) => row.1 == eng)).map
          (fun (row : Int × α × Int) => row.2) =
        some (doc, v + 1)
      rw [find?_map_update st.current eng doc (v + 1) hfind]
      rfl

/-! The response processor (`ai.ProcessAIResponse`). -/

/-- One clarification question row (`models.Question`). -/
structure Question where
  engineerId : Int
  question : String

/-- The text of the single clarification question summarizing all conflicts
(Go `fmt.Sprintf` with `%d` and the `%v` rendering of a string slice). -/
def questionTextFor (conflicts : List String) : String :=
  "I detected " ++ toString conflicts.length ++
    " potential conflicts in your context: [" ++ String.intercalate " " conflicts ++
    "]. Please confirm or clarify."

/-- Failure injection for the five repository calls `ProcessAIResponse`
makes; `mergeFails` stands for the one merge error path, an unparseable
stored context JSON. -/
structure ProcFailures where
  loadFails : Bool
  mergeFails : Bool
  upsertFails : Bool
  historyFails : Bool
  questionFails : Bool
deriving DecidableEq, Repr

/-- `ai.ProcessAIResponse`: load the engineer's context (missing context
merges into the empty document), merge, persist through
`UpsertEngineerContext` (which already appends the minimal history row),
then append the richer history row carrying the change/conflict lists — its
failure is only logged — and, exactly when conflicts were produced, create
one clarification question — its failure is only logged too.  Contexts are
stored in parsed form: the JSON round trip between load, merge and persist
is modelled as the identity. -/
def ProcessAIResponse (f : ProcFailures) (now eng : Int) (r : AIResponse)
    (st : CtxStore Ctx (List ChangeRecord) (List String)) (questions : List Question) :
    Except String (Int × CtxStore Ctx (List ChangeRecord) (List String) × List Question) :=
  if f.loadFails then Except.error "get existing context" else
  let existing : Ctx :=
    match GetEngineerContext st eng with
    | some p => p.1
    | none => []
  if f.mergeFails then Except.error "merge ai response" else
  let mr := MergeAIResponse now existing r
  if f.upsertFails then Except.error "persist merged context" else
  let vr := UpsertEngineerContext now eng mr.merged "ai" st
  let st2 :=
    if f.historyFails then vr.2
    else CreateContextHistory now eng mr.merged
      (if mr.changes.isEmpty then none else some mr.changes)
      (if mr.conflicts.isEmpty then none else some mr.conflicts) "ai" vr.1 vr.2
  let qs2 :=
    if 0 < mr.conflicts.length then
      if f.questionFails then questions
      else questions ++ [⟨eng, questionTextFor mr.conflicts⟩]
    else questions
  Except.ok (vr.1, st2, qs2)

/-- C10: `ProcessAIResponse` fails exactly when the context load, the merge,
or the `UpsertEngineerContext` persistence fails; a failure of the richer
`CreateContextHistory` write or of the clarification-question creation is
swallowed, and the call still returns the new version produced by the
persistence step. -/
theorem process_error_swallowing_c10 (f : ProcFailures) (now eng : Int) (r : AIResponse)
    (st : CtxStore Ctx (List ChangeRecord) (List String)) (qs : List Question) :
    ((ProcessAIResponse f now eng r st qs).isOk = true ↔
        f.loadFails = false ∧ f.mergeFails = false ∧ f.upsertFails = false) ∧
      (∀ hb qb : Bool,
        (ProcessAIResponse ⟨false, false, false, hb, qb⟩ now eng r st qs).toOption.map
            (fun x => x.1) =
          some (UpsertEngineerContext now eng
            (MergeAIResponse now
              (match GetEngineerContext st eng with
               | some p => p.1
               | none => []) r).merged "ai" st).1) := by
  constructor
  · obtain ⟨lf, mf, uf, hf, qf⟩ := f
    cases lf <;> cases mf <;> cases uf <;>
      simp [ProcessAIResponse, Except.isOk, Except.toBool]
  · intro hb qb
    cases hb <;> cases qb <;> rfl

end RagSpec
